import Mathlib

set_option linter.unusedSectionVars false

/-!
Verification of the sinabs `ExpLeak` layer and surrogate-gradient functions.

A tensor of shape `(d₀, d₁, ..., dₖ)` is embedded as a value of `TData α [d₀, ..., dₖ]`,
a nested list whose nesting depth follows the shape list; well-formedness (`twf`)
states that every dimension has exactly the declared length.  Elementwise torch
operations become structural maps/zips; `input[:, t]` and `torch.stack(_, 1)`
become `tIndex1` and `tStack1`.  The scalar field is kept generic over a
`LinearOrderedField` so the recurrence can be evaluated exactly over `ℚ`; the
layer-level definitions that involve `torch.exp` are instantiated at `ℝ`.
-/

/-- Shape-indexed tensor data: `TData α [] = α` and
`TData α (n :: s) = List (TData α s)` (a list of `n` sub-tensors when well formed). -/
@[reducible] def TData (α : Type) : List ℕ → Type
  | [] => α
  | _ :: s => List (TData α s)

variable {α : Type} [LinearOrderedField α]

/-- All-zeros tensor of a given shape (`torch.zeros(shape)`). -/
def tzeros : (s : List ℕ) → TData α s
  | [] => (0 : α)
  | n :: s => List.replicate n (tzeros s)

/-- Well-formedness: every dimension of the data has the length declared by the shape. -/
def twf : {s : List ℕ} → TData α s → Bool
  | [], _ => true
  | n :: _, l => (List.length l == n) && l.all (fun x => twf x)

/-- Elementwise map over a tensor (broadcasting a scalar function, as torch
elementwise operations do). -/
def tmap (f : α → α) : {s : List ℕ} → TData α s → TData α s
  | [], a => f a
  | _ :: _, l => l.map (fun x => tmap f x)

/-- Elementwise combination of two same-shaped tensors (e.g. tensor addition). -/
def tzip (f : α → α → α) : {s : List ℕ} → TData α s → TData α s → TData α s
  | [], a, b => f a b
  | _ :: _, l, m => List.zipWith (fun x y => tzip f x y) l m

/-- All scalar entries of a tensor, flattened in order. -/
def telems : {s : List ℕ} → TData α s → List α
  | [], a => [a]
  | _ :: _, l => (l.map (fun x => telems x)).flatten

/-- Slice `x[:, t]` of a tensor of shape `(b, ts, *rest)`: for each batch row keep
only the entry at position `t` of the second (time) dimension. -/
def tIndex1 {b ts : ℕ} {rest : List ℕ} (x : TData α (b :: ts :: rest)) (t : ℕ) :
    TData α (b :: rest) :=
  x.map (fun row => row.getD t (tzeros rest))

/-- `torch.stack(frames, 1)`: combine `ts` frames of shape `(b, *rest)` into a
tensor of shape `(b, ts, *rest)`, with `out[i][t] = frames[t][i]`. -/
def tStack1 {rest : List ℕ} (b ts : ℕ) (frames : List (TData α (b :: rest))) :
    TData α (b :: ts :: rest) :=
  (List.range b).map (fun i => frames.map (fun f => f.getD i (tzeros rest)))

/-- The sinabs `ExpLeak` layer (src/sinabs/layers/exp_leak.py).  `alpha_leak` and
`tau_leak` are `Option`s because `__init__` assigns exactly one of the two
attributes, depending on `train_alphas`; reading the unassigned one raises
`AttributeError` in Python, modelled as `none`.  `v_mem` is the single named
state of the underlying `StatefulLayer`, `none` while uninitialized. -/
structure ExpLeak (α : Type) where
  alpha_leak : Option α
  tau_leak : Option α
  train_alphas : Bool
  threshold_low : Option α
  v_mem : Option ((s : List ℕ) × TData α s)

/-- Modelled from the spec: the `StatefulLayer` state bookkeeping
(`is_state_initialised` / `state_has_shape` / `init_state_with_shape`) is not in
the sources; per spec §4.4 the forward pass keeps the stored state when it is
initialized with shape `(batch, *trailing_dims)` and otherwise reinitializes it
to zeros of that shape. -/
def initState (l : ExpLeak α) (b : ℕ) (rest : List ℕ) : TData α (b :: rest) :=
  match l.v_mem with
  | none => tzeros (b :: rest)
  | some sv => if h : sv.1 = b :: rest then h ▸ sv.2 else tzeros (b :: rest)

/-- `torch.nn.functional.relu` on a scalar: `relu x = max x 0`
(shown as `relu_eq_max` below; written with `if` so it evaluates). -/
def relu (x : α) : α := if 0 ≤ x then x else 0

/-- The decay-and-integrate line of `ExpLeak.forward`:
`alpha_leak * self.v_mem + (1 - alpha_leak) * input_data[:, step]`. -/
def vDecay (a : α) {b ts : ℕ} {rest : List ℕ}
    (input : TData α (b :: ts :: rest)) (v : TData α (b :: rest)) (step : ℕ) :
    TData α (b :: rest) :=
  tzip (fun x y => x + y) (tmap (fun x => a * x) v)
    (tmap (fun x => (1 - a) * x) (tIndex1 input step))

/-- One time-step of `ExpLeak.forward`: decay-and-integrate, then, when
`threshold_low` is truthy (Python `if self.threshold_low:` — not `None` and
not `0`), the lower clamp `v ← relu(v - threshold_low) + threshold_low`. -/
def vStep (a : α) (tlow : Option α) {b ts : ℕ} {rest : List ℕ}
    (input : TData α (b :: ts :: rest)) (v : TData α (b :: rest)) (step : ℕ) :
    TData α (b :: rest) :=
  match tlow with
  | none => vDecay a input v step
  | some tl =>
    if tl = 0 then vDecay a input v step
    else tmap (fun x => relu (x - tl) + tl) (vDecay a input v step)

/-- Membrane state after the first `n` time-steps of the forward loop, starting
from state `v0`. -/
def vAfter (a : α) (tlow : Option α) {b ts : ℕ} {rest : List ℕ}
    (input : TData α (b :: ts :: rest)) (v0 : TData α (b :: rest)) : ℕ → TData α (b :: rest)
  | 0 => v0
  | n + 1 => vStep a tlow input (vAfter a tlow input v0 n) n

/-- Body of `ExpLeak.forward` given the already-computed decay factor `a`
(the code computes `alpha_leak = self.alpha_leak_calculated` once before the
loop): reinitialize state if needed, run the recurrence over the `ts` time
steps appending the state after each step, store the final state back into
`v_mem`, and return the stacked per-step states. -/
def forwardWith (a : α) (l : ExpLeak α) {b ts : ℕ} {rest : List ℕ}
    (input : TData α (b :: ts :: rest)) : ExpLeak α × TData α (b :: ts :: rest) :=
  let v0 := initState l b rest
  ({ l with v_mem := some ⟨b :: rest, vAfter a l.threshold_low input v0 ts⟩ },
   tStack1 b ts ((List.range ts).map (fun step => vAfter a l.threshold_low input v0 (step + 1))))

/-- State well-formedness of a layer: the stored `v_mem`, if any, is a
well-formed tensor of its recorded shape. -/
def ExpLeak.stateWf (l : ExpLeak α) : Bool :=
  match l.v_mem with
  | none => true
  | some sv => twf sv.2

/-- `ExpLeak.__init__(tau_leak, shape, train_alphas, threshold_low)`: when
`train_alphas` it stores `alpha_leak = exp(-1/tau_leak)` (and never assigns
`tau_leak`); otherwise it stores `tau_leak` (and never assigns `alpha_leak`).
`if shape:` eagerly allocates the state (Python truthiness: an empty shape is
falsy). -/
noncomputable def expLeakInit (tau_leak : ℝ) (shape : Option (List ℕ))
    (train_alphas : Bool) (threshold_low : Option ℝ) : ExpLeak ℝ :=
  { alpha_leak := if train_alphas then some (Real.exp (-1 / tau_leak)) else none
    tau_leak := if train_alphas then none else some tau_leak
    train_alphas := train_alphas
    threshold_low := threshold_low
    v_mem :=
      match shape with
      | none => none
      | some s => if s = [] then none else some ⟨s, tzeros s⟩ }

/-- The `alpha_leak_calculated` property:
`self.alpha_leak if self.train_alphas else torch.exp(-1/self.tau_leak)`.
Reading a never-assigned attribute yields `none` (Python `AttributeError`). -/
noncomputable def alpha_leak_calculated (l : ExpLeak ℝ) : Option ℝ :=
  if l.train_alphas then l.alpha_leak else l.tau_leak.map (fun tau => Real.exp (-1 / tau))

/-- `ExpLeak.forward`: compute the decay factor from the layer's parameters and
run the recurrence body.  `none` models the `AttributeError` raised when the
attribute read inside `alpha_leak_calculated` fails. -/
noncomputable def ExpLeak.forward (l : ExpLeak ℝ) {b ts : ℕ} {rest : List ℕ}
    (input : TData ℝ (b :: ts :: rest)) :
    Option (ExpLeak ℝ × TData ℝ (b :: ts :: rest)) :=
  (alpha_leak_calculated l).map (fun a => forwardWith a l input)

/-- The keys recorded by `ExpLeak._param_dict`: the base `StatefulLayer` portion
(modelled from the spec: the base class records its construction arguments,
here the state names) plus the `tau_leak` entry that `ExpLeak._param_dict`
adds.  Note there is no field for `threshold_low` or `train_alphas`. -/
structure ExpLeakParamDict (α : Type) where
  state_names : List String
  tau_leak : α

/-- `ExpLeak._param_dict`: extends the base dict with
`param_dict["tau_leak"] = self.tau_leak`.  The attribute read `self.tau_leak`
fails (`none`, an `AttributeError`) whenever the layer was constructed with
`train_alphas=True`, because `__init__` then assigned only `alpha_leak`. -/
def ExpLeak.param_dict (l : ExpLeak α) : Option (ExpLeakParamDict α) :=
  l.tau_leak.map (fun tau => { state_names := ["v_mem"], tau_leak := tau })

/-- Scalar function applied elementwise by `Heaviside.__call__`:
`((v_mem >= threshold - window).float()) / threshold`. -/
def heavisideFn (window threshold x : α) : α :=
  (if threshold - window ≤ x then 1 else 0) / threshold

/-- `Heaviside.__call__(v_mem, threshold)` on a whole tensor. -/
def heavisideCall (window : α) {s : List ℕ} (v : TData α s) (threshold : α) : TData α s :=
  tmap (fun x => heavisideFn window threshold x) v

/-- `SingleExponential.__call__(v_mem, threshold)`:
`grad_scale * exp(-beta * |v_mem - threshold|)` (elementwise; stated on scalars). -/
noncomputable def singleExponentialCall (beta grad_scale v_mem threshold : ℝ) : ℝ :=
  grad_scale * Real.exp (-beta * |v_mem - threshold|)

/-! ### List helper lemmas -/

theorem getD_range_map {β : Type} (g : ℕ → β) (d : β) {n t : ℕ} (h : t < n) :
    ((List.range n).map g).getD t d = g t := by
  rw [List.getD_eq_getElem?_getD, List.getElem?_map, List.getElem?_range h]
  rfl

theorem map_getD_self {β : Type} (l : List β) (d : β) :
    (List.range l.length).map (fun i => l.getD i d) = l := by
  apply List.ext_getElem (by simp)
  intro i h1 h2
  rw [List.getElem_map, List.getElem_range, List.getD_eq_getElem _ _ h2]

theorem getD_map_lt {β γ : Type} (g : β → γ) (l : List β) (d : γ) (d' : β) {t : ℕ}
    (h : t < l.length) : (l.map g).getD t d = g (l.getD t d') := by
  rw [List.getD_eq_getElem _ _ (by simpa using h), List.getElem_map,
    List.getD_eq_getElem _ _ h]

theorem map_getD_of_length {β : Type} (l : List β) (d : β) {n : ℕ} (h : l.length = n) :
    (List.range n).map (fun i => l.getD i d) = l := by
  subst h
  exact map_getD_self l d

theorem getD_replicate_self {β : Type} (n : ℕ) (x : β) (i : ℕ) :
    (List.replicate n x).getD i x = x := by
  rcases lt_or_le i n with h | h
  · rw [List.getD_eq_getElem _ _ (by simpa using h)]
    simp
  · rw [List.getD_eq_getElem?_getD, List.getElem?_eq_none (by simpa using h)]
    rfl

theorem zipWith_add_replicate_zero {β : Type} [AddMonoid β] (l : List β) :
    List.zipWith (fun x y => x + y) l (List.replicate l.length (0 : β)) = l := by
  apply List.ext_getElem (by simp)
  intro i h1 h2
  rw [List.getElem_zipWith, List.getElem_replicate, add_zero]

/-! ### Well-formedness lemmas -/

theorem twf_cons {n : ℕ} {st : List ℕ} (l : TData α (n :: st)) :
    twf l = true ↔ List.length l = n ∧ ∀ x ∈ l, twf x = true := by
  simp [twf, List.all_eq_true]

theorem twf_tzeros : ∀ (s : List ℕ), twf (tzeros (α := α) s) = true
  | [] => rfl
  | n :: st => by
    rw [tzeros, twf_cons]
    refine ⟨by simp, ?_⟩
    intro x hx
    rw [List.mem_replicate] at hx
    rw [hx.2]
    exact twf_tzeros st

theorem twf_tmap (f : α → α) : ∀ {s : List ℕ} (v : TData α s),
    twf v = true → twf (tmap f v) = true
  | [], _, _ => rfl
  | n :: st, l, h => by
    rw [twf_cons] at h
    rw [tmap, twf_cons]
    refine ⟨by simpa using h.1, ?_⟩
    intro x hx
    rw [List.mem_map] at hx
    obtain ⟨y, hy, rfl⟩ := hx
    exact twf_tmap f y (h.2 y hy)

theorem twf_tzip (f : α → α → α) : ∀ {s : List ℕ} (x y : TData α s),
    twf x = true → twf y = true → twf (tzip f x y) = true
  | [], _, _, _, _ => rfl
  | n :: st, x, y, hx, hy => by
    rw [twf_cons] at hx hy
    rw [tzip, twf_cons]
    constructor
    · rw [List.length_zipWith, hx.1, hy.1, min_self]
    · intro z hz
      rw [List.mem_iff_getElem] at hz
      obtain ⟨i, hi, rfl⟩ := hz
      rw [List.getElem_zipWith]
      have hix : i < List.length x := by
        rw [List.length_zipWith] at hi
        exact lt_of_lt_of_le hi (min_le_left _ _)
      have hiy : i < List.length y := by
        rw [List.length_zipWith] at hi
        exact lt_of_lt_of_le hi (min_le_right _ _)
      exact twf_tzip f _ _ (hx.2 _ (List.getElem_mem hix)) (hy.2 _ (List.getElem_mem hiy))

theorem twf_getD {n : ℕ} {st : List ℕ} (l : TData α (n :: st)) (i : ℕ)
    (h : twf l = true) : twf (l.getD i (tzeros st)) = true := by
  rw [twf_cons] at h
  rcases lt_or_le i (List.length l) with hi | hi
  · rw [List.getD_eq_getElem _ _ hi]
    exact h.2 _ (List.getElem_mem hi)
  · rw [List.getD_eq_getElem?_getD, List.getElem?_eq_none hi]
    exact twf_tzeros st

theorem twf_tIndex1 {b ts : ℕ} {rest : List ℕ} (x : TData α (b :: ts :: rest)) (t : ℕ)
    (h : twf x = true) : twf (tIndex1 x t) = true := by
  rw [twf_cons] at h
  rw [tIndex1, twf_cons]
  refine ⟨by simpa using h.1, ?_⟩
  intro y hy
  rw [List.mem_map] at hy
  obtain ⟨row, hrow, rfl⟩ := hy
  exact twf_getD row t (h.2 row hrow)

theorem twf_tStack1 {rest : List ℕ} (b ts : ℕ) (frames : List (TData α (b :: rest)))
    (hlen : frames.length = ts) (hw : ∀ f ∈ frames, twf f = true) :
    twf (tStack1 (α := α) b ts frames) = true := by
  rw [tStack1, twf_cons]
  refine ⟨by simp, ?_⟩
  intro inner hinner
  rw [List.mem_map] at hinner
  obtain ⟨i, _, rfl⟩ := hinner
  rw [twf_cons]
  refine ⟨by simpa using hlen, ?_⟩
  intro z hz
  rw [List.mem_map] at hz
  obtain ⟨f, hf, rfl⟩ := hz
  exact twf_getD f i (hw f hf)

/-! ### Element lemmas -/

theorem telems_tmap (f : α → α) : ∀ {s : List ℕ} (v : TData α s),
    telems (tmap f v) = (telems v).map f
  | [], _ => rfl
  | n :: st, l => by
    rw [tmap, telems, telems, List.map_flatten, List.map_map, List.map_map]
    congr 1
    apply List.map_congr_left
    intro x _
    exact telems_tmap f x

theorem mem_telems_getD {n : ℕ} {st : List ℕ} (l : TData α (n :: st)) (i : ℕ)
    (hi : i < List.length l) {x : α} (hx : x ∈ telems (l.getD i (tzeros st))) :
    x ∈ telems l := by
  rw [List.getD_eq_getElem _ _ hi] at hx
  rw [telems, List.mem_flatten]
  exact ⟨telems l[i], List.mem_map.2 ⟨l[i], List.getElem_mem hi, rfl⟩, hx⟩

theorem mem_telems_tStack1 {rest : List ℕ} (b ts : ℕ)
    (frames : List (TData α (b :: rest)))
    (hw : ∀ f ∈ frames, twf f = true) {x : α}
    (hx : x ∈ telems (tStack1 (α := α) b ts frames)) : ∃ f ∈ frames, x ∈ telems f := by
  rw [tStack1, telems, List.mem_flatten] at hx
  obtain ⟨inner, hinner, hmem⟩ := hx
  rw [List.map_map, List.mem_map] at hinner
  obtain ⟨i, hi, rfl⟩ := hinner
  simp only [Function.comp] at hmem
  rw [telems, List.mem_flatten] at hmem
  obtain ⟨e, he, hmem⟩ := hmem
  rw [List.map_map, List.mem_map] at he
  obtain ⟨f, hf, rfl⟩ := he
  simp only [Function.comp] at hmem
  refine ⟨f, hf, ?_⟩
  have hlen : List.length f = b := ((twf_cons f).1 (hw f hf)).1
  have hib : i < b := List.mem_range.1 hi
  exact mem_telems_getD f i (by rw [hlen]; exact hib) hmem

/-! ### Zero-input lemmas -/

theorem tmap_mul_tzeros (c : α) : ∀ (s : List ℕ),
    tmap (fun x => c * x) (tzeros (α := α) s) = tzeros s
  | [] => mul_zero c
  | n :: st => by
    rw [tzeros, tmap, List.map_replicate, tmap_mul_tzeros c st]

theorem tzip_add_tzeros : ∀ {s : List ℕ} (v : TData α s),
    twf v = true → tzip (fun x y => x + y) v (tzeros s) = v
  | [], a, _ => add_zero a
  | n :: st, l, h => by
    rw [twf_cons] at h
    rw [tzip, tzeros]
    apply List.ext_getElem (by simp [List.length_zipWith, h.1])
    intro i h1 h2
    rw [List.getElem_zipWith, List.getElem_replicate]
    exact tzip_add_tzeros l[i] (h.2 _ (List.getElem_mem h2))

theorem tIndex1_tzeros {b ts : ℕ} {rest : List ℕ} (t : ℕ) :
    tIndex1 (α := α) (tzeros (b :: ts :: rest)) t = tzeros (b :: rest) := by
  rw [tIndex1]
  show List.map _ (List.replicate b (tzeros (ts :: rest))) = _
  rw [List.map_replicate]
  show List.replicate b ((List.replicate ts (tzeros rest)).getD t (tzeros rest)) = _
  rw [getD_replicate_self]
  rfl

/-! ### Slice-of-stack lemma -/

theorem tIndex1_tStack1 {rest : List ℕ} {b ts : ℕ} (frames : List (TData α (b :: rest)))
    (hlen : frames.length = ts) (hw : ∀ f ∈ frames, twf f = true) {t : ℕ} (ht : t < ts) :
    tIndex1 (tStack1 (α := α) b ts frames) t = frames.getD t (tzeros (b :: rest)) := by
  have htf : t < frames.length := by rw [hlen]; exact ht
  rw [tIndex1, tStack1, List.map_map]
  have hmem : frames.getD t (tzeros (b :: rest)) ∈ frames := by
    rw [List.getD_eq_getElem _ _ htf]
    exact List.getElem_mem htf
  have hblen : List.length (frames.getD t (tzeros (b :: rest))) = b :=
    ((twf_cons _).1 (hw _ hmem)).1
  calc (List.range b).map
        ((fun row => row.getD t (tzeros rest)) ∘ fun i => frames.map (fun f => f.getD i (tzeros rest)))
      = (List.range b).map (fun i => (frames.getD t (tzeros (b :: rest))).getD i (tzeros rest)) := by
        apply List.map_congr_left
        intro i _
        exact getD_map_lt _ frames _ _ htf
    _ = frames.getD t (tzeros (b :: rest)) :=
        map_getD_of_length _ (tzeros rest) hblen

/-! ### Forward-pass well-formedness -/

theorem twf_initState (l : ExpLeak α) (b : ℕ) (rest : List ℕ) (h : l.stateWf = true) :
    twf (initState l b rest) = true := by
  unfold ExpLeak.stateWf at h
  unfold initState
  cases hv : l.v_mem with
  | none => exact twf_tzeros _
  | some sv =>
    obtain ⟨s, v⟩ := sv
    rw [hv] at h
    have h' : twf v = true := h
    by_cases hs : s = b :: rest
    · subst hs
      show twf (if h : b :: rest = b :: rest then h ▸ v else tzeros (b :: rest)) = true
      rw [dif_pos rfl]
      exact h'
    · show twf (if h : s = b :: rest then h ▸ v else tzeros (b :: rest)) = true
      rw [dif_neg hs]
      exact twf_tzeros _

theorem initState_of_mismatch (l : ExpLeak α) (b : ℕ) (rest : List ℕ)
    (h : ∀ sv ∈ l.v_mem, sv.1 ≠ b :: rest) : initState l b rest = tzeros (b :: rest) := by
  unfold initState
  cases hv : l.v_mem with
  | none => rfl
  | some sv => exact dif_neg (h sv (by simp [hv]))

theorem twf_vDecay (a : α) {b ts : ℕ} {rest : List ℕ} (input : TData α (b :: ts :: rest))
    (v : TData α (b :: rest)) (step : ℕ) (hv : twf v = true) (hin : twf input = true) :
    twf (vDecay a input v step) = true :=
  twf_tzip _ _ _ (twf_tmap _ _ hv) (twf_tmap _ _ (twf_tIndex1 _ _ hin))

theorem twf_vStep (a : α) (tlow : Option α) {b ts : ℕ} {rest : List ℕ}
    (input : TData α (b :: ts :: rest)) (v : TData α (b :: rest)) (step : ℕ)
    (hv : twf v = true) (hin : twf input = true) :
    twf (vStep a tlow input v step) = true := by
  cases tlow with
  | none => exact twf_vDecay a input v step hv hin
  | some tl =>
    show twf (if tl = 0 then vDecay a input v step
      else tmap (fun x => relu (x - tl) + tl) (vDecay a input v step)) = true
    by_cases htl : tl = 0
    · rw [if_pos htl]
      exact twf_vDecay a input v step hv hin
    · rw [if_neg htl]
      exact twf_tmap _ _ (twf_vDecay a input v step hv hin)

theorem twf_vAfter (a : α) (tlow : Option α) {b ts : ℕ} {rest : List ℕ}
    (input : TData α (b :: ts :: rest)) (v0 : TData α (b :: rest))
    (hin : twf input = true) (hv : twf v0 = true) :
    ∀ n, twf (vAfter a tlow input v0 n) = true
  | 0 => hv
  | n + 1 => twf_vStep a tlow input _ n (twf_vAfter a tlow input v0 hin hv n) hin

theorem twf_forwardWith_out (a : α) (l : ExpLeak α) {b ts : ℕ} {rest : List ℕ}
    (input : TData α (b :: ts :: rest)) (hin : twf input = true) (hl : l.stateWf = true) :
    twf (forwardWith a l input).2 = true := by
  apply twf_tStack1 _ _ _ (by simp)
  intro f hf
  rw [List.mem_map] at hf
  obtain ⟨step, _, rfl⟩ := hf
  exact twf_vAfter a l.threshold_low input _ hin (twf_initState l b rest hl) (step + 1)

theorem forwardWith_slice (a : α) (l : ExpLeak α) {b ts : ℕ} {rest : List ℕ}
    (input : TData α (b :: ts :: rest)) {t : ℕ} (ht : t < ts)
    (hin : twf input = true) (hl : l.stateWf = true) :
    tIndex1 (forwardWith a l input).2 t
      = vAfter a l.threshold_low input (initState l b rest) (t + 1) := by
  show tIndex1 (tStack1 b ts _) t = _
  rw [tIndex1_tStack1 _ (by simp) ?_ ht]
  · exact getD_range_map _ _ ht
  · intro f hf
    rw [List.mem_map] at hf
    obtain ⟨step, _, rfl⟩ := hf
    exact twf_vAfter a l.threshold_low input _ hin (twf_initState l b rest hl) (step + 1)

/-! ### Zero-input step and clamp bounds -/

theorem vStep_zero_input (a : α) {b ts : ℕ} {rest : List ℕ}
    (v : TData α (b :: rest)) (step : ℕ) (hv : twf v = true) :
    vStep a none (tzeros (b :: ts :: rest)) v step = tmap (fun x => a * x) v := by
  show vDecay a (tzeros (b :: ts :: rest)) v step = _
  rw [vDecay, tIndex1_tzeros, tmap_mul_tzeros]
  exact tzip_add_tzeros _ (twf_tmap _ _ hv)

theorem relu_nonneg (x : α) : 0 ≤ relu x := by
  rw [relu]
  by_cases h : (0 : α) ≤ x
  · rw [if_pos h]
    exact h
  · rw [if_neg h]

theorem relu_eq_max (x : α) : relu x = max x 0 := by
  rw [relu]
  rcases le_total 0 x with h | h
  · rw [if_pos h, max_eq_left h]
  · rw [max_eq_right h]
    by_cases h0 : (0 : α) ≤ x
    · rw [if_pos h0]
      exact le_antisymm h h0
    · rw [if_neg h0]

theorem clamp_eq_max (tl x : α) : relu (x - tl) + tl = max x tl := by
  rw [relu_eq_max]
  rcases le_total tl x with h | h
  · rw [max_eq_left (by linarith), max_eq_left h]
    ring
  · rw [max_eq_right (by linarith), max_eq_right h]
    ring

theorem telems_clamp_ge (tl : α) {s : List ℕ} (v : TData α s) (x : α)
    (hx : x ∈ telems (tmap (fun y => relu (y - tl) + tl) v)) : tl ≤ x := by
  rw [telems_tmap, List.mem_map] at hx
  obtain ⟨y, _, rfl⟩ := hx
  have h0 : (0 : α) ≤ relu (y - tl) := relu_nonneg _
  linarith

theorem telems_vAfter_ge (a tl : α) (htl : ¬ tl = 0) {b ts : ℕ} {rest : List ℕ}
    (input : TData α (b :: ts :: rest)) (v0 : TData α (b :: rest)) (n : ℕ) (x : α)
    (hx : x ∈ telems (vAfter a (some tl) input v0 (n + 1))) : tl ≤ x := by
  rw [vAfter] at hx
  have hx' : x ∈ telems (if tl = 0 then vDecay a input (vAfter a (some tl) input v0 n) n
      else tmap (fun y => relu (y - tl) + tl)
        (vDecay a input (vAfter a (some tl) input v0 n) n)) := hx
  rw [if_neg htl] at hx'
  exact telems_clamp_ge tl _ x hx'


/-- Identity with the shape explicit, used to write concrete tensor literals. -/
def tdata (s : List ℕ) (v : TData α s) : TData α s := v

/-! ### Claim C1 -/

/-- C1 (counterexample): the claim states that the output slice at step `t`
always equals the pure decay-and-integrate recurrence
`state = alpha*state + (1-alpha)*input[:, step]`; for a layer with
`threshold_low = 1` and one input `-4`, the code's slice is the clamped value
`1` while the pure recurrence gives `-2`. -/
theorem expleak_slice_pure_recurrence_cex :
    tIndex1 ((forwardWith ((1 : ℚ)/2) (ExpLeak.mk none (some 2) false (some 1) none)
        (tdata [1, 1] [[(-4 : ℚ)]])).2) 0
      ≠ vAfter ((1 : ℚ)/2) none (tdata [1, 1] [[(-4 : ℚ)]])
          (initState (ExpLeak.mk none (some 2) false (some 1) none) 1 []) 1 := by
  intro h
  have h1 : tIndex1 ((forwardWith ((1 : ℚ)/2) (ExpLeak.mk none (some 2) false (some 1) none)
      (tdata [1, 1] [[(-4 : ℚ)]])).2) 0
      = [relu ((1/2 * 0 + (1 - 1/2) * (-4 : ℚ)) - 1) + 1] := rfl
  have h2 : vAfter ((1 : ℚ)/2) none (tdata [1, 1] [[(-4 : ℚ)]])
      (initState (ExpLeak.mk none (some 2) false (some 1) none) 1 []) 1
      = [1/2 * 0 + (1 - 1/2) * (-4 : ℚ)] := rfl
  rw [h1, h2] at h
  simp only [List.cons.injEq, and_true, relu] at h
  norm_num at h

/-- C1 (amended): for every ExpLeak layer with decay factor `alpha` and every
well-formed input of shape `(batch, time, *rest)`, forward returns a tensor of
the same shape (well-formed at `(batch, time, *rest)`) whose slice at time `t`
equals the state obtained by applying, sequentially for steps `0..t`, the
update `state = alpha*state + (1-alpha)*input[:, step]` — followed, when
`threshold_low` is truthy, by the lower clamp — to the stored membrane state;
and step `t+1`'s value is produced from step `t`'s updated state. -/
theorem expleak_forward_shape_and_recurrence {b ts : ℕ} {rest : List ℕ}
    (a : α) (l : ExpLeak α) (input : TData α (b :: ts :: rest)) {t : ℕ}
    (hin : twf input = true) (hl : l.stateWf = true) (ht : t < ts) :
    twf (forwardWith a l input).2 = true ∧
    tIndex1 (forwardWith a l input).2 t
      = vAfter a l.threshold_low input (initState l b rest) (t + 1) ∧
    vAfter a l.threshold_low input (initState l b rest) (t + 1)
      = vStep a l.threshold_low input
          (vAfter a l.threshold_low input (initState l b rest) t) t :=
  ⟨twf_forwardWith_out a l input hin hl, forwardWith_slice a l input ht hin hl, rfl⟩

/-- Witness for C1 (amended) at a concrete layer and input over `ℚ`. -/
theorem expleak_forward_shape_and_recurrence_witness :
    twf (tdata [1, 2] [[(0 : ℚ), 2]]) = true ∧
    (ExpLeak.mk (none : Option ℚ) (some 2) false none none).stateWf = true ∧
    1 < 2 ∧
    (twf (forwardWith ((1 : ℚ)/2) (ExpLeak.mk none (some 2) false none none)
        (tdata [1, 2] [[(0 : ℚ), 2]])).2 = true ∧
     tIndex1 (forwardWith ((1 : ℚ)/2) (ExpLeak.mk none (some 2) false none none)
        (tdata [1, 2] [[(0 : ℚ), 2]])).2 1
       = vAfter ((1 : ℚ)/2) none (tdata [1, 2] [[(0 : ℚ), 2]])
           (initState (ExpLeak.mk none (some 2) false none none) 1 []) (1 + 1) ∧
     vAfter ((1 : ℚ)/2) none (tdata [1, 2] [[(0 : ℚ), 2]])
         (initState (ExpLeak.mk none (some 2) false none none) 1 []) (1 + 1)
       = vStep ((1 : ℚ)/2) none (tdata [1, 2] [[(0 : ℚ), 2]])
           (vAfter ((1 : ℚ)/2) none (tdata [1, 2] [[(0 : ℚ), 2]])
             (initState (ExpLeak.mk none (some 2) false none none) 1 []) 1) 1) :=
  ⟨by decide, by decide, by decide,
    expleak_forward_shape_and_recurrence ((1 : ℚ)/2)
      (ExpLeak.mk none (some 2) false none none) (tdata [1, 2] [[(0 : ℚ), 2]])
      (by decide) (by decide) (by decide)⟩

/-! ### Claim C2 -/

/-- C2: every forward call succeeds regardless of the stored state's shape: the
returned layer's state is always the `(batch, *trailing_dims)`-shaped,
well-formed state of the most recent input (transparent reinitialization), and
when the stored state's shape does not match the current input the recurrence
starts from a freshly zero-initialized state.  `forwardWith` is a total
function, so no input/state combination raises. -/
theorem expleak_forward_state_shape {b ts : ℕ} {rest : List ℕ}
    (a : α) (l : ExpLeak α) (input : TData α (b :: ts :: rest))
    (hin : twf input = true) (hl : l.stateWf = true) :
    (forwardWith a l input).1.v_mem
      = some ⟨b :: rest, vAfter a l.threshold_low input (initState l b rest) ts⟩ ∧
    (forwardWith a l input).1.stateWf = true ∧
    ((∀ sv ∈ l.v_mem, sv.1 ≠ b :: rest) → initState l b rest = tzeros (b :: rest)) :=
  ⟨rfl,
   twf_vAfter a l.threshold_low input _ hin (twf_initState l b rest hl) ts,
   initState_of_mismatch l b rest⟩

/-- Witness for C2: a layer whose stored state has batch size 2 is fed a
batch-5 input; the call goes through and the state tracks the new shape
(mirrors `test_changing_batch_size`). -/
theorem expleak_forward_state_shape_witness :
    twf (tdata [5, 1] [[(1 : ℚ)], [1], [1], [1], [1]]) = true ∧
    (ExpLeak.mk (none : Option ℚ) (some 2) false none
        (some ⟨[2], tdata [2] [0, 0]⟩)).stateWf = true ∧
    ((forwardWith ((1 : ℚ)/2)
        (ExpLeak.mk none (some 2) false none (some ⟨[2], tdata [2] [0, 0]⟩))
        (tdata [5, 1] [[(1 : ℚ)], [1], [1], [1], [1]])).1.v_mem
      = some ⟨[5],
          vAfter ((1 : ℚ)/2) none (tdata [5, 1] [[(1 : ℚ)], [1], [1], [1], [1]])
            (initState (ExpLeak.mk none (some 2) false none
              (some ⟨[2], tdata [2] [0, 0]⟩)) 5 []) 1⟩ ∧
     (forwardWith ((1 : ℚ)/2)
        (ExpLeak.mk none (some 2) false none (some ⟨[2], tdata [2] [0, 0]⟩))
        (tdata [5, 1] [[(1 : ℚ)], [1], [1], [1], [1]])).1.stateWf = true ∧
     ((∀ sv ∈ (ExpLeak.mk (none : Option ℚ) (some 2) false none
          (some ⟨[2], tdata [2] [0, 0]⟩)).v_mem, sv.1 ≠ [5]) →
       initState (ExpLeak.mk (none : Option ℚ) (some 2) false none
          (some ⟨[2], tdata [2] [0, 0]⟩)) 5 [] = tzeros [5])) :=
  ⟨by decide, by decide,
    expleak_forward_state_shape ((1 : ℚ)/2)
      (ExpLeak.mk none (some 2) false none (some ⟨[2], tdata [2] [0, 0]⟩))
      (tdata [5, 1] [[(1 : ℚ)], [1], [1], [1], [1]]) (by decide) (by decide)⟩

/-! ### Claim C9 -/

/-- C9: a forward call mutates only `v_mem`; the configuration and parameters
(`alpha_leak`, `tau_leak`, `train_alphas`, `threshold_low`) of the returned
layer are exactly those of the input layer, for every input tensor. -/
theorem expleak_forward_only_mutates_v_mem (a : α) (l : ExpLeak α)
    {b ts : ℕ} {rest : List ℕ} (input : TData α (b :: ts :: rest)) :
    (forwardWith a l input).1.alpha_leak = l.alpha_leak ∧
    (forwardWith a l input).1.tau_leak = l.tau_leak ∧
    (forwardWith a l input).1.train_alphas = l.train_alphas ∧
    (forwardWith a l input).1.threshold_low = l.threshold_low ∧
    (forwardWith a l input).1.v_mem
      = some ⟨b :: rest, vAfter a l.threshold_low input (initState l b rest) ts⟩ :=
  ⟨rfl, rfl, rfl, rfl, rfl⟩

/-! ### Claim C3 -/

theorem initState_congr (l1 l2 : ExpLeak α) (h : l1.v_mem = l2.v_mem)
    (b : ℕ) (rest : List ℕ) : initState l1 b rest = initState l2 b rest := by
  unfold initState
  rw [h]

theorem forwardWith_congr (a : α) (l1 l2 : ExpLeak α)
    (hth : l1.threshold_low = l2.threshold_low) (hv : l1.v_mem = l2.v_mem)
    {b ts : ℕ} {rest : List ℕ} (input : TData α (b :: ts :: rest)) :
    (forwardWith a l1 input).2 = (forwardWith a l2 input).2 ∧
    (forwardWith a l1 input).1.v_mem = (forwardWith a l2 input).1.v_mem := by
  simp only [forwardWith]
  rw [hth, initState_congr l1 l2 hv b rest]
  exact ⟨rfl, rfl⟩

/-- C3: for every time constant `tau` and every input, the `train_alphas=True`
layer (which stores `alpha_leak = exp(-1/tau)` at construction) and the
`train_alphas=False` layer (which derives `exp(-1/tau_leak)` on every forward
call) produce identical outputs and identical post-call states, because both
use the effective decay factor `exp(-1/tau)`. -/
theorem expleak_tau_alpha_equivalence (tau : ℝ) (shape : Option (List ℕ))
    (tlow : Option ℝ) {b ts : ℕ} {rest : List ℕ} (input : TData ℝ (b :: ts :: rest)) :
    (ExpLeak.forward (expLeakInit tau shape true tlow) input).map Prod.snd
      = (ExpLeak.forward (expLeakInit tau shape false tlow) input).map Prod.snd ∧
    (ExpLeak.forward (expLeakInit tau shape true tlow) input).map (fun r => r.1.v_mem)
      = (ExpLeak.forward (expLeakInit tau shape false tlow) input).map (fun r => r.1.v_mem) ∧
    alpha_leak_calculated (expLeakInit tau shape true tlow) = some (Real.exp (-1 / tau)) ∧
    alpha_leak_calculated (expLeakInit tau shape false tlow) = some (Real.exp (-1 / tau)) := by
  have hac1 : alpha_leak_calculated (expLeakInit tau shape true tlow)
      = some (Real.exp (-1 / tau)) := rfl
  have hac2 : alpha_leak_calculated (expLeakInit tau shape false tlow)
      = some (Real.exp (-1 / tau)) := rfl
  have hcong := forwardWith_congr (Real.exp (-1 / tau))
    (expLeakInit tau shape true tlow) (expLeakInit tau shape false tlow) rfl rfl input
  refine ⟨?_, ?_, hac1, hac2⟩
  · rw [ExpLeak.forward, ExpLeak.forward, hac1, hac2]
    simp only [Option.map_some']
    exact congrArg some hcong.1
  · rw [ExpLeak.forward, ExpLeak.forward, hac1, hac2]
    simp only [Option.map_some']
    exact congrArg some hcong.2

/-! ### Claim C4 -/

/-- C4 (counterexample): the claim asserts the clamp for every configured
(non-`None`) `threshold_low`; with `threshold_low = 0.0` the Python guard
`if self.threshold_low:` is falsy, the clamp is skipped, and an output element
falls below the configured bound. -/
theorem expleak_threshold_low_zero_cex :
    (ExpLeak.mk (none : Option ℚ) (some 2) false (some 0) none).threshold_low = some 0 ∧
    (-1 : ℚ) ∈ telems ((forwardWith ((1 : ℚ)/2)
        (ExpLeak.mk none (some 2) false (some 0) none) (tdata [1, 1] [[(-2 : ℚ)]])).2) ∧
    ¬ ((0 : ℚ) ≤ (-1 : ℚ)) := by
  refine ⟨rfl, ?_, by norm_num⟩
  have h0 : vStep ((1 : ℚ)/2) (some 0) (tdata [1, 1] [[(-2 : ℚ)]]) (tzeros [1]) 0
      = vDecay ((1 : ℚ)/2) (tdata [1, 1] [[(-2 : ℚ)]]) (tzeros [1]) 0 := by
    show (if (0 : ℚ) = 0 then vDecay ((1 : ℚ)/2) (tdata [1, 1] [[(-2 : ℚ)]]) (tzeros [1]) 0
      else tmap (fun x => relu (x - 0) + 0)
        (vDecay ((1 : ℚ)/2) (tdata [1, 1] [[(-2 : ℚ)]]) (tzeros [1]) 0)) = _
    rw [if_pos rfl]
  have h : (forwardWith ((1 : ℚ)/2) (ExpLeak.mk none (some 2) false (some 0) none)
      (tdata [1, 1] [[(-2 : ℚ)]])).2 = [[(1 : ℚ)/2 * 0 + (1 - 1/2) * (-2 : ℚ)]] :=
    calc (forwardWith ((1 : ℚ)/2) (ExpLeak.mk none (some 2) false (some 0) none)
        (tdata [1, 1] [[(-2 : ℚ)]])).2
        = tStack1 1 1 [vStep ((1 : ℚ)/2) (some 0) (tdata [1, 1] [[(-2 : ℚ)]]) (tzeros [1]) 0] :=
          rfl
      _ = tStack1 1 1 [vDecay ((1 : ℚ)/2) (tdata [1, 1] [[(-2 : ℚ)]]) (tzeros [1]) 0] := by
          rw [h0]
      _ = [[(1 : ℚ)/2 * 0 + (1 - 1/2) * (-2 : ℚ)]] := rfl
  rw [h]
  show (-1 : ℚ) ∈ [(1 : ℚ)/2 * 0 + (1 - 1/2) * (-2 : ℚ)]
  exact List.mem_singleton.2 (by norm_num)

/-- C4 (amended): for every ExpLeak layer whose `threshold_low` is configured
*and nonzero* (the code's Python-truthiness guard skips the clamp at `0.0`),
after every time-step update each element of the membrane state — and hence
every element of the output — is at least `threshold_low`, via the clamp
`relu(v_mem - threshold_low) + threshold_low`, which equals
`max(v_mem, threshold_low)`. -/
theorem expleak_threshold_low_clamp {b ts : ℕ} {rest : List ℕ}
    (a tl : α) (l : ExpLeak α) (input : TData α (b :: ts :: rest))
    (hth : l.threshold_low = some tl) (htl : tl ≠ 0)
    (hin : twf input = true) (hl : l.stateWf = true) :
    (∀ x ∈ telems (forwardWith a l input).2, tl ≤ x) ∧
    (∀ step, step < ts →
      ∀ x ∈ telems (vAfter a l.threshold_low input (initState l b rest) (step + 1)),
        tl ≤ x) ∧
    (∀ y : α, relu (y - tl) + tl = max y tl) := by
  have hv0 : twf (initState l b rest) = true := twf_initState l b rest hl
  have hwf : ∀ f ∈ (List.range ts).map (fun step =>
      vAfter a l.threshold_low input (initState l b rest) (step + 1)), twf f = true := by
    intro f hf
    rw [List.mem_map] at hf
    obtain ⟨step, _, rfl⟩ := hf
    exact twf_vAfter a l.threshold_low input _ hin hv0 (step + 1)
  refine ⟨?_, ?_, fun y => clamp_eq_max tl y⟩
  · intro x hx
    have hx' : x ∈ telems (tStack1 b ts ((List.range ts).map (fun step =>
        vAfter a l.threshold_low input (initState l b rest) (step + 1)))) := hx
    obtain ⟨f, hf, hxf⟩ := mem_telems_tStack1 b ts _ hwf hx'
    rw [List.mem_map] at hf
    obtain ⟨step, _, rfl⟩ := hf
    rw [hth] at hxf
    exact telems_vAfter_ge a tl htl input _ step x hxf
  · intro step _ x hx
    rw [hth] at hx
    exact telems_vAfter_ge a tl htl input _ step x hx

/-- Witness for C4 (amended) with `threshold_low = 1` over `ℚ`. -/
theorem expleak_threshold_low_clamp_witness :
    (ExpLeak.mk (none : Option ℚ) (some 2) false (some 1) none).threshold_low = some 1 ∧
    (1 : ℚ) ≠ 0 ∧
    twf (tdata [1, 1] [[(5 : ℚ)]]) = true ∧
    (ExpLeak.mk (none : Option ℚ) (some 2) false (some 1) none).stateWf = true ∧
    ((∀ x ∈ telems (forwardWith ((1 : ℚ)/2)
        (ExpLeak.mk none (some 2) false (some 1) none) (tdata [1, 1] [[(5 : ℚ)]])).2,
        (1 : ℚ) ≤ x) ∧
     (∀ step, step < 1 →
       ∀ x ∈ telems (vAfter ((1 : ℚ)/2)
           (ExpLeak.mk (none : Option ℚ) (some 2) false (some 1) none).threshold_low
           (tdata [1, 1] [[(5 : ℚ)]])
           (initState (ExpLeak.mk (none : Option ℚ) (some 2) false (some 1) none) 1 [])
           (step + 1)),
         (1 : ℚ) ≤ x) ∧
     (∀ y : ℚ, relu (y - 1) + 1 = max y 1)) :=
  ⟨rfl, by norm_num, by decide, by decide,
    expleak_threshold_low_clamp ((1 : ℚ)/2) 1
      (ExpLeak.mk none (some 2) false (some 1) none) (tdata [1, 1] [[(5 : ℚ)]])
      rfl (by norm_num) (by decide) (by decide)⟩

/-! ### Claim C5 -/

/-- C5 (code bug): `_param_dict` does not return a reconstruction dictionary
for every instance.  With `train_alphas=True` the read of `self.tau_leak`
fails (`__init__` assigned only `alpha_leak`), so the accessor raises instead
of returning; and in the `train_alphas=False` case the returned dictionary
records `tau_leak` (and the base-class portion) but neither `threshold_low`
nor `train_alphas`. -/
theorem expleak_param_dict_attribute_error :
    ExpLeak.param_dict (expLeakInit 10 none true none) = none ∧
    ExpLeak.param_dict (expLeakInit 10 none false (some 1))
      = some { state_names := ["v_mem"], tau_leak := 10 } :=
  ⟨rfl, rfl⟩

/-! ### Claim C6 -/

/-- C6: `Heaviside.__call__` returns, elementwise, `1/threshold` where
`v_mem >= threshold - window` and `0` elsewhere, and the result has the same
shape as `v_mem` (it is a pure function of its arguments — the embedding is a
function with no state). -/
theorem heaviside_elementwise (w th : α) {s : List ℕ} (v : TData α s)
    (hv : twf v = true) :
    twf (heavisideCall w v th) = true ∧
    telems (heavisideCall w v th)
      = (telems v).map (fun x => if th - w ≤ x then 1 / th else 0) := by
  have hfn : ∀ x : α, heavisideFn w th x = if th - w ≤ x then 1 / th else 0 := by
    intro x
    rw [heavisideFn]
    by_cases h : th - w ≤ x
    · rw [if_pos h, if_pos h]
    · rw [if_neg h, if_neg h, zero_div]
  refine ⟨twf_tmap _ _ hv, ?_⟩
  rw [heavisideCall, telems_tmap]
  exact List.map_congr_left (fun x _ => hfn x)

/-- Witness for C6 at a concrete tensor over `ℚ`. -/
theorem heaviside_elementwise_witness :
    twf (tdata [2] [(2 : ℚ), -5]) = true ∧
    (twf (heavisideCall (1 : ℚ) (tdata [2] [(2 : ℚ), -5]) 2) = true ∧
     telems (heavisideCall (1 : ℚ) (tdata [2] [(2 : ℚ), -5]) 2)
       = (telems (tdata [2] [(2 : ℚ), -5])).map
           (fun x => if (2 : ℚ) - 1 ≤ x then 1 / 2 else 0)) :=
  ⟨by decide, heaviside_elementwise 1 2 (tdata [2] [(2 : ℚ), -5]) (by decide)⟩

/-! ### Claim C7 -/

/-- C7 (counterexample): `SingleExponential` never returns exactly `0`;
with the concrete parameters `beta = 1/2`, `grad_scale = 1`, `threshold = 1`
there is no margin `d` below which the surrogate vanishes, refuting
"returns 0 for membrane potential sufficiently far below threshold". -/
theorem single_exponential_never_zero_cex :
    ¬ ∃ d : ℝ, 0 < d ∧ ∀ v : ℝ, v ≤ 1 - d → singleExponentialCall (1/2) 1 v 1 = 0 := by
  rintro ⟨d, hd, h⟩
  have h1 := h (1 - d) le_rfl
  rw [singleExponentialCall, one_mul] at h1
  exact Real.exp_ne_zero _ h1

/-- C7 (amended): each surrogate behaves per its own support: Heaviside is `0`
exactly below `threshold - window` and `1/threshold ≠ 0` at or above it, while
SingleExponential is strictly positive everywhere and strictly decreasing in
the distance `|v_mem - threshold|` (exponential decay on both sides of
threshold); it tends to zero far from threshold but never equals `0`. -/
theorem surrogate_gradient_support (w th beta gs v : ℝ)
    (hgs : 0 < gs) (hb : 0 < beta) (hth : th ≠ 0) :
    (v < th - w → heavisideFn w th v = 0) ∧
    (th - w ≤ v → heavisideFn w th v = 1 / th ∧ heavisideFn w th v ≠ 0) ∧
    0 < singleExponentialCall beta gs v th ∧
    (∀ v1 v2 : ℝ, |v1 - th| < |v2 - th| →
      singleExponentialCall beta gs v2 th < singleExponentialCall beta gs v1 th) := by
  refine ⟨?_, ?_, ?_, ?_⟩
  · intro h
    rw [heavisideFn, if_neg (not_le.2 h), zero_div]
  · intro h
    rw [heavisideFn, if_pos h]
    exact ⟨rfl, one_div_ne_zero hth⟩
  · exact mul_pos hgs (Real.exp_pos _)
  · intro v1 v2 hlt
    rw [singleExponentialCall, singleExponentialCall]
    apply mul_lt_mul_of_pos_left _ hgs
    apply Real.exp_lt_exp.2
    have h2 : beta * |v1 - th| < beta * |v2 - th| := mul_lt_mul_of_pos_left hlt hb
    linarith

/-- Witness for C7 (amended) at concrete parameters. -/
theorem surrogate_gradient_support_witness :
    0 < (1 : ℝ) ∧ (2 : ℝ) ≠ 0 ∧
    (((0 : ℝ) < 2 - 1 → heavisideFn (1 : ℝ) 2 0 = 0) ∧
     ((2 : ℝ) - 1 ≤ 0 → heavisideFn (1 : ℝ) 2 0 = 1 / 2 ∧ heavisideFn (1 : ℝ) 2 0 ≠ 0) ∧
     0 < singleExponentialCall 1 1 0 2 ∧
     (∀ v1 v2 : ℝ, |v1 - 2| < |v2 - 2| →
       singleExponentialCall 1 1 v2 2 < singleExponentialCall 1 1 v1 2)) :=
  ⟨by norm_num, by norm_num,
    surrogate_gradient_support 1 2 1 1 0 (by norm_num) (by norm_num) (by norm_num)⟩

/-! ### Claim C8 -/

/-- C8: for every `tau > 0` the decay factor `exp(-1/tau)` computed by
`alpha_leak_calculated` lies strictly in `(0, 1)`; one recurrence step with
zero input (and `threshold_low` not configured) maps the state `v` elementwise
to `exp(-1/tau) * v`, which is strictly smaller in absolute value than `v` for
every nonzero scalar. -/
theorem expleak_decay_in_unit_interval (tau : ℝ) (htau : 0 < tau)
    {b ts : ℕ} {rest : List ℕ} (v : TData ℝ (b :: rest)) (hv : twf v = true)
    (step : ℕ) :
    alpha_leak_calculated (expLeakInit tau none false none)
      = some (Real.exp (-1 / tau)) ∧
    Real.exp (-1 / tau) ∈ Set.Ioo (0 : ℝ) 1 ∧
    vStep (Real.exp (-1 / tau)) none (tzeros (b :: ts :: rest)) v step
      = tmap (fun x => Real.exp (-1 / tau) * x) v ∧
    ∀ x : ℝ, x ≠ 0 → |Real.exp (-1 / tau) * x| < |x| := by
  have hneg : (-1 : ℝ) / tau < 0 := div_neg_of_neg_of_pos (by norm_num) htau
  have hlt1 : Real.exp (-1 / tau) < 1 := Real.exp_lt_one_iff.2 hneg
  refine ⟨rfl, ⟨Real.exp_pos _, hlt1⟩, vStep_zero_input _ v step hv, ?_⟩
  intro x hx
  rw [abs_mul, abs_of_pos (Real.exp_pos _)]
  calc Real.exp (-1 / tau) * |x| < 1 * |x| :=
        mul_lt_mul_of_pos_right hlt1 (abs_pos.2 hx)
    _ = |x| := one_mul _

/-- Witness for C8 at `tau = 1` and a concrete one-element state. -/
theorem expleak_decay_in_unit_interval_witness :
    (0 : ℝ) < 1 ∧ twf (tdata [1] [(2 : ℝ)]) = true ∧
    (alpha_leak_calculated (expLeakInit 1 none false none)
       = some (Real.exp (-1 / 1)) ∧
     Real.exp (-1 / 1) ∈ Set.Ioo (0 : ℝ) 1 ∧
     vStep (Real.exp (-1 / 1)) none (tzeros [1, 1]) (tdata [1] [(2 : ℝ)]) 0
       = tmap (fun x => Real.exp (-1 / 1) * x) (tdata [1] [(2 : ℝ)]) ∧
     ∀ x : ℝ, x ≠ 0 → |Real.exp (-1 / 1) * x| < |x|) :=
  ⟨by norm_num, by decide,
    expleak_decay_in_unit_interval 1 (by norm_num) (tdata [1] [(2 : ℝ)]) (by decide) 0⟩

/-! ### Claim C10 -/

/-- C10: `Heaviside.__call__` divides by `threshold` with no guard: the
division genuinely inverts multiplication by `threshold` for every
`threshold ≠ 0`, for all `v_mem` and `window`, and `threshold = 0` is the
unique threshold at which the division breaks down (the embedding's total
division returns the junk value `0` there, standing for the unguarded
float division of the source). -/
theorem heaviside_division_guard (th : α) :
    (∃ v w : α, heavisideFn w th v * th ≠ (if th - w ≤ v then 1 else 0)) ↔ th = 0 := by
  constructor
  · rintro ⟨v, w, h⟩
    by_contra hth
    exact h (div_mul_cancel₀ _ hth)
  · intro h
    subst h
    refine ⟨0, 0, ?_⟩
    rw [heavisideFn]
    norm_num
